import Mathlib

/-!
Shallow embedding of the synthetic-data generator of the repository
(`ConfoundingInteraction.ipynb`, function `generate_data`), together with
proofs of the specification's claims about it.

The generator works over a dataframe modelled as an insertion-ordered
association list of named real-valued columns, and over an explicit
pseudo-random source modelled as a stream of real draws with a position
counter (a fixed seed determines the stream).
-/

/-- A dataframe column: the row values of one variable. -/
abbrev Column := List ℝ

/-- A dataframe: the insertion-ordered list of named columns, the shape of a
Python dict of numpy arrays and of the pandas DataFrame built from it. -/
abbrev Frame := List (String × Column)

/-- The generator errors named by the specification. -/
inductive GenError where
  | unknownFeatureReference (name : String)
  | unsupportedDistributionKind (kind : String)
deriving DecidableEq

/-- The process-wide pseudo-random source: a stream of draws and the index of
the next unconsumed draw.  A fixed seed determines the stream, so two runs
from the same seed see the same stream. -/
structure RNG where
  stream : ℕ → ℝ
  pos : ℕ

/-- Advance the random source past k consumed draws. -/
def RNG.advance (g : RNG) (k : ℕ) : RNG := ⟨g.stream, g.pos + k⟩

/-- Assignment `d[k] = v` on a Python dict rendered as an association list:
an existing key keeps its position and gets the new value, a new key is
appended at the end. -/
def dictInsert (d : Frame) (k : String) (v : Column) : Frame :=
  if d.any fun p => p.1 == k then d.map fun p => if p.1 == k then (k, v) else p
  else d ++ [(k, v)]

/-- Lookup `d[k]`, `none` when the key is absent (a Python `KeyError`). -/
def dictGet? (d : Frame) (k : String) : Option Column :=
  (d.find? fun p => p.1 == k).map fun p => p.2

/-- The column stored under a name, defaulting to the empty column. -/
def getCol (d : Frame) (k : String) : Column := (dictGet? d k).getD []

/-- The key list of a frame, in insertion order. -/
def keysOf (d : Frame) : List String := d.map fun p => p.1

/-- Splitting a character list on the separator ':', mirroring Python's
`str.split(":")` on the string's characters. -/
def splitCharsColon : List Char → List Char → List (List Char)
  | [], acc => [acc.reverse]
  | c :: rest, acc =>
    if c = ':' then acc.reverse :: splitCharsColon rest []
    else splitCharsColon rest (c :: acc)

/-- The translation of `feature.split(":")` from the source. -/
def splitOnColon (s : String) : List String :=
  (splitCharsColon s.toList []).map fun l => String.mk l

/-- The translation of the membership test `":" in feature` from the source. -/
def hasColon (s : String) : Bool := s.toList.contains ':'

/-- The feature names a coefficient term key refers to: the first two
split components for an interaction key, the key itself otherwise.  This is
exactly the set of names the source reads from the dataframe for that key. -/
def refNames (key : String) : List String :=
  if hasColon key then [(splitOnColon key).getD 0 "", (splitOnColon key).getD 1 ""]
  else [key]

/-- The three distribution kind tags the source dispatches on. -/
def supportedKind (k : String) : Bool :=
  k == "bernouli" || k == "gaussian" || k == "constant"

/-- The logistic transform `1 / (1 + exp (-x))` applied to each target entry. -/
noncomputable def logistic (x : ℝ) : ℝ := 1 / (1 + Real.exp (-x))

/-- Sampling of one feature column, the dispatch on the distribution kind tag
in the source's first loop.  A Bernoulli draw is 1 when the next stream value
falls below the success probability; a Gaussian draw is mean plus standard
deviation times the next stream value; a constant column consumes no draws.
An unrecognized kind produces no column and consumes no draws, exactly as the
source's if/elif chain falls through without assigning. -/
noncomputable def sampleColumn (g : RNG) (kind : String) (params : List ℝ) (n : ℕ) :
    Option Column × RNG :=
  if kind = "bernouli" then
    (some ((List.range n).map fun k => if g.stream (g.pos + k) < params.getD 0 0 then 1 else 0),
      g.advance n)
  else if kind = "gaussian" then
    (some ((List.range n).map fun k => params.getD 0 0 + params.getD 1 0 * g.stream (g.pos + k)),
      g.advance n)
  else if kind = "constant" then
    (some (List.replicate n (params.getD 0 0)), g)
  else
    (none, g)

/-- The source's first loop: `for feature, dist_params in distributions.items()`,
assigning each sampled column into the `data` dict in iteration order. -/
noncomputable def sampleFeatures (dists : List (String × String × List ℝ)) (n : ℕ)
    (data : Frame) (g : RNG) : Frame × RNG :=
  match dists with
  | [] => (data, g)
  | (name, kind, params) :: rest =>
    match sampleColumn g kind params n with
    | (some col, g2) => sampleFeatures rest n (dictInsert data name col) g2
    | (none, g2) => sampleFeatures rest n data g2

/-- The source's second loop: `for feature, coefficient in coefficients.items()`,
performing `df[target] += df[a] * df[b] * coefficient` for interaction keys and
`df[target] += df[feature] * coefficient` for main-effect keys.  A read of a
missing column is a `KeyError`, reported as `unknownFeatureReference`; the
augmented assignment reads the target column first, then the term columns. -/
noncomputable def applyCoeffs (coeffs : List (String × ℝ)) (target : String) (df : Frame) :
    Except GenError Frame :=
  match coeffs with
  | [] => .ok df
  | (key, coef) :: rest =>
    match dictGet? df target with
    | none => .error (.unknownFeatureReference target)
    | some tcol =>
      if hasColon key then
        match dictGet? df ((splitOnColon key).getD 0 "") with
        | none => .error (.unknownFeatureReference ((splitOnColon key).getD 0 ""))
        | some a =>
          match dictGet? df ((splitOnColon key).getD 1 "") with
          | none => .error (.unknownFeatureReference ((splitOnColon key).getD 1 ""))
          | some b =>
            applyCoeffs rest target (dictInsert df target
              (List.zipWith (fun x y => x + y) tcol
                ((List.zipWith (fun x y => x * y) a b).map fun x => x * coef)))
      else
        match dictGet? df key with
        | none => .error (.unknownFeatureReference key)
        | some f =>
          applyCoeffs rest target (dictInsert df target
            (List.zipWith (fun x y => x + y) tcol (f.map fun x => x * coef)))

/-- The embedded `generate_data(coefficients, distributions, target,
target_type, number_of_datapoints)` from the notebook, with the random source
passed and returned explicitly: sample the feature columns, zero-initialize the
target column, accumulate the coefficient terms, apply the logistic transform,
and for a binary target replace each entry by a Bernoulli draw at the
just-computed probability. -/
noncomputable def generate_data (coefficients : List (String × ℝ))
    (distributions : List (String × String × List ℝ)) (target : String)
    (target_type : String) (number_of_datapoints : ℕ) (g : RNG) :
    Except GenError Frame × RNG :=
  let s := sampleFeatures distributions number_of_datapoints [] g
  let data := dictInsert s.1 target (List.replicate number_of_datapoints 0)
  match applyCoeffs coefficients target data with
  | .error e => (.error e, s.2)
  | .ok df =>
    match dictGet? df target with
    | none => (.error (.unknownFeatureReference target), s.2)
    | some tcol =>
      let df1 := dictInsert df target (tcol.map logistic)
      if target_type = "binary" then
        match dictGet? df1 target with
        | none => (.error (.unknownFeatureReference target), s.2)
        | some probs =>
          (.ok (dictInsert df1 target ((List.range number_of_datapoints).map fun k =>
            if s.2.stream (s.2.pos + k) < probs.getD k 0 then 1 else 0)),
            s.2.advance number_of_datapoints)
      else
        (.ok df1, s.2)

/-- A fixed random source for concrete evaluations: the all-zero stream at
position zero. -/
noncomputable def rng0 : RNG := ⟨fun _ => 0, 0⟩

/-- Row value of a named column of a frame, defaulting to 0. -/
noncomputable def colValue (d : Frame) (name : String) (i : ℕ) : ℝ :=
  (getCol d name).getD i 0

/-- The sampled value of a feature at a row, read off the frame produced by
the sampling loop alone (before any target bookkeeping). -/
noncomputable def featValue (dists : List (String × String × List ℝ)) (n : ℕ) (g : RNG) :
    String → ℕ → ℝ :=
  colValue (sampleFeatures dists n [] g).1

/-- The value of one coefficient term at a row, per the specification: the
product of the two named features for an interaction key, the named feature
itself otherwise. -/
noncomputable def termOf (fv : String → ℕ → ℝ) (key : String) (i : ℕ) : ℝ :=
  if hasColon key then
    fv ((splitOnColon key).getD 0 "") i * fv ((splitOnColon key).getD 1 "") i
  else fv key i

/-- The raw linear score of a row, per the specification: the sum, in the
coefficient mapping's iteration order, of coefficient times term value. -/
noncomputable def linScore (coeffs : List (String × ℝ))
    (dists : List (String × String × List ℝ)) (n : ℕ) (g : RNG) (i : ℕ) : ℝ :=
  (coeffs.map fun p => p.2 * termOf (featValue dists n g) p.1 i).sum

/-- The caller-visible environment of one call: the two mappings the caller
passes by reference and the process-wide random source. -/
structure CallerEnv where
  coefficients : List (String × ℝ)
  distributions : List (String × String × List ℝ)
  rng : RNG

/-- One call of the generator as a transition on the caller-visible
environment: the source only iterates over the two mappings (its writes go to
the local `data`/`df`), so the call returns its result and advances the random
source. -/
noncomputable def generate_data_call (env : CallerEnv) (target target_type : String)
    (n : ℕ) : Except GenError Frame × CallerEnv :=
  let r := generate_data env.coefficients env.distributions target target_type n env.rng
  (r.1, ⟨env.coefficients, env.distributions, r.2⟩)

example : splitOnColon "a:b:c" = ["a", "b", "c"] := by decide
example : splitOnColon "x" = ["x"] := by decide
example : hasColon "a:b" = true := by decide
example : hasColon "x" = false := by decide
example : refNames "a:b:c" = ["a", "b"] := by decide

/-! Basic facts about the dict operations. -/

lemma any_key_iff_mem {d : Frame} {k : String} :
    (d.any fun p => p.1 == k) = true ↔ k ∈ keysOf d := by
  simp [keysOf, List.any_eq_true, List.mem_map, beq_iff_eq]

lemma dictGet?_eq_none_of_not_mem {d : Frame} {k : String} (h : k ∉ keysOf d) :
    dictGet? d k = none := by
  induction d with
  | nil => rfl
  | cons p d ih =>
    simp only [keysOf, List.map_cons, List.mem_cons, not_or] at h
    simp only [dictGet?, List.find?]
    have hpk : (p.1 == k) = false := by
      simp [beq_iff_eq]
      exact fun hh => h.1 hh.symm
    rw [hpk]
    exact ih (by simpa [keysOf] using h.2)

lemma mem_keysOf_of_dictGet?_some {d : Frame} {k : String} {v : Column}
    (h : dictGet? d k = some v) : k ∈ keysOf d := by
  induction d with
  | nil => simp [dictGet?] at h
  | cons p d ih =>
    simp only [dictGet?, List.find?] at h
    by_cases hpk : (p.1 == k) = true
    · have : p.1 = k := by simpa [beq_iff_eq] using hpk
      simp [keysOf, this]
    · rw [Bool.not_eq_true] at hpk
      rw [hpk] at h
      simp only [keysOf, List.map_cons, List.mem_cons]
      exact Or.inr (ih h)

lemma dictGet?_isSome_of_mem {d : Frame} {k : String} (h : k ∈ keysOf d) :
    ∃ v, dictGet? d k = some v := by
  induction d with
  | nil => simp [keysOf] at h
  | cons p d ih =>
    simp only [keysOf, List.map_cons, List.mem_cons] at h
    by_cases hpk : p.1 = k
    · exact ⟨p.2, by simp [dictGet?, List.find?, hpk]⟩
    · have hk : k ∈ keysOf d := by
        rcases h with h | h
        · exact absurd h.symm hpk
        · exact h
      rcases ih hk with ⟨v, hv⟩
      refine ⟨v, ?_⟩
      simp only [dictGet?, List.find?]
      have : (p.1 == k) = false := by simp [beq_iff_eq, hpk]
      rw [this]
      exact hv

lemma dictGet?_append_some {S T : Frame} {k : String} {v : Column}
    (h : dictGet? S k = some v) : dictGet? (S ++ T) k = some v := by
  induction S with
  | nil => simp [dictGet?] at h
  | cons p S ih =>
    simp only [dictGet?, List.find?, List.cons_append] at h ⊢
    cases hpk : (p.1 == k) with
    | true => rw [hpk] at h; exact h
    | false => rw [hpk] at h; exact ih h

lemma dictGet?_append_none {S T : Frame} {k : String}
    (h : dictGet? S k = none) : dictGet? (S ++ T) k = dictGet? T k := by
  induction S with
  | nil => simp
  | cons p S ih =>
    simp only [dictGet?, List.find?, List.cons_append] at h ⊢
    cases hpk : (p.1 == k) with
    | true => rw [hpk] at h; simp at h
    | false => rw [hpk] at h; exact ih h

lemma dictGet?_singleton_self {k : String} {v : Column} :
    dictGet? [(k, v)] k = some v := by
  simp [dictGet?, List.find?]

lemma dictGet?_singleton_ne {k r : String} {v : Column} (h : r ≠ k) :
    dictGet? [(k, v)] r = none := by
  have hk : (k == r) = false := by
    simp [beq_iff_eq]
    exact fun hh => h hh.symm
  simp [dictGet?, List.find?, hk]

lemma dictGet?_append_singleton_self {S : Frame} {k : String} {c : Column}
    (h : k ∉ keysOf S) : dictGet? (S ++ [(k, c)]) k = some c := by
  rw [dictGet?_append_none (dictGet?_eq_none_of_not_mem h)]
  exact dictGet?_singleton_self

lemma dictGet?_append_singleton_ne {S : Frame} {k r : String} {c : Column}
    (h : r ≠ k) : dictGet? (S ++ [(k, c)]) r = dictGet? S r := by
  cases hS : dictGet? S r with
  | some v => exact dictGet?_append_some hS
  | none => rw [dictGet?_append_none hS]; exact dictGet?_singleton_ne h

lemma dictInsert_of_not_mem {d : Frame} {k : String} {v : Column}
    (h : k ∉ keysOf d) : dictInsert d k v = d ++ [(k, v)] := by
  have : (d.any fun p => p.1 == k) = false := by
    rw [← Bool.not_eq_true, any_key_iff_mem]
    exact h
  simp [dictInsert, this]

lemma map_insert_id {S : Frame} {k : String} {v : Column} (h : k ∉ keysOf S) :
    (S.map fun p => if p.1 == k then (k, v) else p) = S := by
  induction S with
  | nil => rfl
  | cons q S ih =>
    simp only [keysOf, List.map_cons, List.mem_cons, not_or] at h
    have hq : (q.1 == k) = false := by
      simp [beq_iff_eq]
      exact fun hh => h.1 hh.symm
    rw [List.map_cons, hq]
    simp only [Bool.false_eq_true, if_false]
    rw [ih (by simpa [keysOf] using h.2)]

lemma dictInsert_append_singleton {S : Frame} {k : String} {old v : Column}
    (h : k ∉ keysOf S) : dictInsert (S ++ [(k, old)]) k v = S ++ [(k, v)] := by
  have hany : ((S ++ [(k, old)]).any fun p => p.1 == k) = true := by
    rw [any_key_iff_mem]
    simp [keysOf]
  simp only [dictInsert, hany, if_true, List.map_append, map_insert_id h]
  simp


lemma keysOf_append {S T : Frame} : keysOf (S ++ T) = keysOf S ++ keysOf T := by
  simp [keysOf]

lemma keysOf_dictInsert_of_mem {d : Frame} {k : String} {v : Column}
    (h : k ∈ keysOf d) : keysOf (dictInsert d k v) = keysOf d := by
  have hany : (d.any fun p => p.1 == k) = true := any_key_iff_mem.mpr h
  simp only [dictInsert, hany, if_true, keysOf, List.map_map]
  apply List.map_congr_left
  intro p _
  by_cases hp : p.1 = k
  · simp [hp]
  · simp [hp]

lemma mem_keysOf_dictInsert_self {d : Frame} {k : String} {v : Column} :
    k ∈ keysOf (dictInsert d k v) := by
  by_cases h : k ∈ keysOf d
  · rw [keysOf_dictInsert_of_mem h]; exact h
  · rw [dictInsert_of_not_mem h, keysOf_append]
    simp [keysOf]

lemma mem_keysOf_dictInsert_of_mem {d : Frame} {k x : String} {v : Column}
    (h : x ∈ keysOf d) : x ∈ keysOf (dictInsert d k v) := by
  by_cases hk : k ∈ keysOf d
  · rw [keysOf_dictInsert_of_mem hk]; exact h
  · rw [dictInsert_of_not_mem hk, keysOf_append]
    exact List.mem_append_left _ h

lemma mem_keysOf_dictInsert_elim {d : Frame} {k x : String} {v : Column}
    (h : x ∈ keysOf (dictInsert d k v)) : x ∈ keysOf d ∨ x = k := by
  by_cases hk : k ∈ keysOf d
  · rw [keysOf_dictInsert_of_mem hk] at h; exact Or.inl h
  · rw [dictInsert_of_not_mem hk, keysOf_append] at h
    rcases List.mem_append.mp h with h | h
    · exact Or.inl h
    · simp [keysOf] at h
      exact Or.inr h

lemma mem_of_mem_dictInsert {d : Frame} {k : String} {v : Column} {p : String × Column}
    (h : p ∈ dictInsert d k v) : p ∈ d ∨ p.2 = v := by
  by_cases hk : (d.any fun q => q.1 == k) = true
  · simp only [dictInsert, hk, if_true] at h
    rcases List.mem_map.mp h with ⟨q, hq, hqe⟩
    by_cases hqk : q.1 = k
    · have : (q.1 == k) = true := by simp [beq_iff_eq, hqk]
      rw [this] at hqe
      simp at hqe
      right
      rw [← hqe]
    · have : (q.1 == k) = false := by simp [beq_iff_eq, hqk]
      rw [this] at hqe
      simp at hqe
      left
      rw [← hqe]
      exact hq
  · rw [Bool.not_eq_true] at hk
    simp only [dictInsert, hk, Bool.false_eq_true, if_false] at h
    rcases List.mem_append.mp h with h | h
    · exact Or.inl h
    · simp at h
      right
      rw [h]

lemma dictGet?_map_insert {d : Frame} {k : String} {v : Column} (h : k ∈ keysOf d) :
    dictGet? (d.map fun p => if p.1 == k then (k, v) else p) k = some v := by
  induction d with
  | nil => simp [keysOf] at h
  | cons q d ih =>
    by_cases hq : q.1 = k
    · have hb : (q.1 == k) = true := by simp [beq_iff_eq, hq]
      simp only [List.map_cons, hb, if_true]
      simp [dictGet?, List.find?]
    · have hb : (q.1 == k) = false := by simp [beq_iff_eq, hq]
      simp only [List.map_cons, hb, Bool.false_eq_true, if_false]
      simp only [dictGet?, List.find?, hb]
      apply ih
      simp only [keysOf, List.map_cons, List.mem_cons] at h
      rcases h with h | h
      · exact absurd h.symm hq
      · exact h

lemma dictGet?_dictInsert_self {d : Frame} {k : String} {v : Column} :
    dictGet? (dictInsert d k v) k = some v := by
  by_cases hk : (d.any fun q => q.1 == k) = true
  · simp only [dictInsert, hk, if_true]
    exact dictGet?_map_insert (any_key_iff_mem.mp hk)
  · rw [Bool.not_eq_true] at hk
    simp only [dictInsert, hk, Bool.false_eq_true, if_false]
    apply dictGet?_append_singleton_self
    intro hmem
    rw [← any_key_iff_mem] at hmem
    rw [hk] at hmem
    exact Bool.false_ne_true hmem

/-! List-level helpers: elementwise column arithmetic over `List.range`. -/

lemma zipWith_map_range (f : ℝ → ℝ → ℝ) (F G : ℕ → ℝ) (l : List ℕ) :
    List.zipWith f (l.map F) (l.map G) = l.map fun x => f (F x) (G x) := by
  induction l with
  | nil => rfl
  | cons a l ih => simp [ih]

lemma getD_eq_getElem_of_lt {l : Column} {i : ℕ} (h : i < l.length) :
    l.getD i 0 = l[i] := by
  rw [List.getD_eq_getElem?_getD, List.getElem?_eq_getElem h]
  rfl

lemma map_getD_of_length {l : Column} {n : ℕ} (h : l.length = n) :
    ((List.range n).map fun i => l.getD i 0) = l := by
  apply List.ext_getElem
  · simp [h]
  · intro i h1 h2
    simp only [List.getElem_map, List.getElem_range]
    exact getD_eq_getElem_of_lt h2

lemma getD_range_map {f : ℕ → ℝ} {n i : ℕ} (h : i < n) :
    ((List.range n).map f).getD i 0 = f i := by
  have hl : i < ((List.range n).map f).length := by simp [h]
  rw [getD_eq_getElem_of_lt hl]
  simp

lemma replicate_eq_range_map {n : ℕ} {x : ℝ} :
    List.replicate n x = (List.range n).map fun _ => x := by
  rw [List.map_const', List.length_range]

/-! Facts about the feature-sampling loop. -/

lemma sampleColumn_length {g : RNG} {kind : String} {params : List ℝ} {n : ℕ} {col : Column}
    (h : (sampleColumn g kind params n).1 = some col) : col.length = n := by
  unfold sampleColumn at h
  split_ifs at h
  · injection h with h
    rw [← h]
    simp
  · injection h with h
    rw [← h]
    simp
  · injection h with h
    rw [← h]
    simp

lemma sampleColumn_some_of_supported {g : RNG} {kind : String} {params : List ℝ} {n : ℕ}
    (h : supportedKind kind = true) : ∃ col, (sampleColumn g kind params n).1 = some col := by
  unfold supportedKind at h
  simp only [Bool.or_eq_true, beq_iff_eq] at h
  unfold sampleColumn
  rcases h with (h | h) | h <;> simp [h]

lemma sampleFeatures_lengths {n : ℕ} :
    ∀ (d : List (String × String × List ℝ)) (data : Frame) (g : RNG),
      (∀ p ∈ data, p.2.length = n) →
      ∀ p ∈ (sampleFeatures d n data g).1, p.2.length = n := by
  intro d
  induction d with
  | nil => intro data g h; simpa [sampleFeatures] using h
  | cons q rest ih =>
    intro data g h
    obtain ⟨name, kind, params⟩ := q
    cases hc : sampleColumn g kind params n with
    | mk o g2 =>
      cases o with
      | some col =>
        rw [sampleFeatures, hc]
        apply ih
        intro p hp
        rcases mem_of_mem_dictInsert hp with hp | hp
        · exact h p hp
        · rw [hp]
          exact sampleColumn_length (by rw [hc])
      | none =>
        rw [sampleFeatures, hc]
        exact ih data g2 h

lemma mem_keysOf_sampleFeatures_mono {n : ℕ} {x : String} :
    ∀ (d : List (String × String × List ℝ)) (data : Frame) (g : RNG),
      x ∈ keysOf data → x ∈ keysOf (sampleFeatures d n data g).1 := by
  intro d
  induction d with
  | nil => intro data g h; simpa [sampleFeatures] using h
  | cons q rest ih =>
    intro data g h
    obtain ⟨name, kind, params⟩ := q
    cases hc : sampleColumn g kind params n with
    | mk o g2 =>
      cases o with
      | some col =>
        rw [sampleFeatures, hc]
        exact ih _ g2 (mem_keysOf_dictInsert_of_mem h)
      | none =>
        rw [sampleFeatures, hc]
        exact ih data g2 h

lemma mem_keysOf_sampleFeatures {n : ℕ} {r : String} :
    ∀ (d : List (String × String × List ℝ)) (data : Frame) (g : RNG),
      (∀ p ∈ d, supportedKind p.2.1 = true) → r ∈ d.map (fun q => q.1) →
      r ∈ keysOf (sampleFeatures d n data g).1 := by
  intro d
  induction d with
  | nil => intro data g _ h; simp at h
  | cons q rest ih =>
    intro data g hsup hr
    obtain ⟨name, kind, params⟩ := q
    obtain ⟨col, hcol⟩ :=
      @sampleColumn_some_of_supported g kind params n
        (hsup _ (List.mem_cons_self _ _))
    cases hc : sampleColumn g kind params n with
    | mk o g2 =>
      rw [hc] at hcol
      cases o with
      | some col2 =>
        rw [sampleFeatures, hc]
        simp only [List.map_cons, List.mem_cons] at hr
        rcases hr with hr | hr
        · rw [hr]
          exact mem_keysOf_sampleFeatures_mono _ _ _ mem_keysOf_dictInsert_self
        · exact ih _ g2 (fun p hp => hsup p (List.mem_cons_of_mem _ hp)) hr
      | none => simp at hcol

lemma keysOf_sampleFeatures_subset {n : ℕ} {x : String} :
    ∀ (d : List (String × String × List ℝ)) (data : Frame) (g : RNG),
      x ∈ keysOf (sampleFeatures d n data g).1 →
      x ∈ keysOf data ∨ x ∈ d.map (fun q => q.1) := by
  intro d
  induction d with
  | nil => intro data g h; simp [sampleFeatures] at h; exact Or.inl h
  | cons q rest ih =>
    intro data g h
    obtain ⟨name, kind, params⟩ := q
    cases hc : sampleColumn g kind params n with
    | mk o g2 =>
      cases o with
      | some col =>
        rw [sampleFeatures, hc] at h
        rcases ih _ g2 h with h | h
        · rcases mem_keysOf_dictInsert_elim h with h | h
          · exact Or.inl h
          · right; simp [h]
        · right; simp [h]
      | none =>
        rw [sampleFeatures, hc] at h
        rcases ih data g2 h with h | h
        · exact Or.inl h
        · right; simp [h]

lemma keysOf_sampleFeatures {n : ℕ} :
    ∀ (d : List (String × String × List ℝ)) (data : Frame) (g : RNG),
      (∀ p ∈ d, supportedKind p.2.1 = true) →
      (d.map fun q => q.1).Nodup →
      (∀ x ∈ d.map (fun q => q.1), x ∉ keysOf data) →
      keysOf (sampleFeatures d n data g).1 = keysOf data ++ d.map (fun q => q.1) := by
  intro d
  induction d with
  | nil => intro data g _ _ _; simp [sampleFeatures]
  | cons q rest ih =>
    intro data g hsup hnd hdisj
    obtain ⟨name, kind, params⟩ := q
    obtain ⟨col, hcol⟩ :=
      @sampleColumn_some_of_supported g kind params n
        (hsup _ (List.mem_cons_self _ _))
    cases hc : sampleColumn g kind params n with
    | mk o g2 =>
      rw [hc] at hcol
      cases o with
      | some col2 =>
        rw [sampleFeatures, hc]
        have hname : name ∉ keysOf data := hdisj name (by simp)
        have hins : keysOf (dictInsert data name col2) = keysOf data ++ [name] := by
          rw [dictInsert_of_not_mem hname, keysOf_append]
          rfl
        rw [ih _ g2 (fun p hp => hsup p (List.mem_cons_of_mem _ hp))
          (by simpa using (List.nodup_cons.mp (by simpa using hnd)).2) ?_, hins]
        · simp
        · intro x hx
          rw [hins]
          intro hmem
          rcases List.mem_append.mp hmem with hm | hm
          · exact hdisj x (List.mem_cons_of_mem _ hx) hm
          · simp at hm
            have : name ∉ rest.map (fun q => q.1) :=
              (List.nodup_cons.mp (by simpa using hnd)).1
            rw [hm] at hx
            exact this hx
      | none => simp at hcol

/-! Facts about the coefficient-application loop. -/

lemma length_of_dictGet?_some {d : Frame} {k : String} {v : Column} {m : ℕ}
    (hlen : ∀ p ∈ d, p.2.length = m) (h : dictGet? d k = some v) : v.length = m := by
  unfold dictGet? at h
  cases hf : d.find? fun p => p.1 == k with
  | none => rw [hf] at h; cases h
  | some p =>
    rw [hf] at h
    injection h with h
    rw [← h]
    exact hlen p (List.mem_of_find?_eq_some hf)

lemma refNames_of_hasColon {key : String} (hc : hasColon key = true) :
    refNames key = [(splitOnColon key).getD 0 "", (splitOnColon key).getD 1 ""] := by
  simp [refNames, hc]

lemma bool_eq_false {b : Bool} (h : ¬b = true) : b = false := by
  cases b
  · rfl
  · exact absurd rfl h

lemma refNames_of_not_hasColon {key : String} (hc : ¬hasColon key = true) :
    refNames key = [key] := by
  simp [refNames, bool_eq_false hc]

lemma applyCoeffs_ok_of_valid {target : String} {m : ℕ} :
    ∀ (coeffs : List (String × ℝ)) (df : Frame),
      target ∈ keysOf df →
      (∀ p ∈ coeffs, ∀ r ∈ refNames p.1, r ∈ keysOf df) →
      (∀ p ∈ df, p.2.length = m) →
      ∃ df', applyCoeffs coeffs target df = .ok df' ∧ keysOf df' = keysOf df ∧
        ∀ p ∈ df', p.2.length = m := by
  intro coeffs
  induction coeffs with
  | nil =>
    intro df _ _ hlen
    exact ⟨df, rfl, rfl, hlen⟩
  | cons q rest ih =>
    intro df ht hrefs hlen
    obtain ⟨key, coef⟩ := q
    obtain ⟨tcol, htcol⟩ := dictGet?_isSome_of_mem ht
    have htlen : tcol.length = m := length_of_dictGet?_some hlen htcol
    have hrest : ∀ p ∈ rest, ∀ r ∈ refNames p.1, r ∈ keysOf df :=
      fun p hp => hrefs p (List.mem_cons_of_mem _ hp)
    by_cases hc : hasColon key = true
    · have h0m : (splitOnColon key).getD 0 "" ∈ keysOf df := by
        apply hrefs (key, coef) (List.mem_cons_self _ _)
        rw [refNames_of_hasColon hc]
        simp
      have h1m : (splitOnColon key).getD 1 "" ∈ keysOf df := by
        apply hrefs (key, coef) (List.mem_cons_self _ _)
        rw [refNames_of_hasColon hc]
        simp
      obtain ⟨a, ha⟩ := dictGet?_isSome_of_mem h0m
      obtain ⟨b, hb⟩ := dictGet?_isSome_of_mem h1m
      have halen : a.length = m := length_of_dictGet?_some hlen ha
      have hblen : b.length = m := length_of_dictGet?_some hlen hb
      have hstep : applyCoeffs ((key, coef) :: rest) target df
          = applyCoeffs rest target (dictInsert df target
            (List.zipWith (fun x y => x + y) tcol
              ((List.zipWith (fun x y => x * y) a b).map fun x => x * coef))) := by
        simp only [applyCoeffs, htcol, hc, eq_self_iff_true, if_true, ha, hb]
      have hlen2 : ∀ p ∈ dictInsert df target
          (List.zipWith (fun x y => x + y) tcol
            ((List.zipWith (fun x y => x * y) a b).map fun x => x * coef)),
          p.2.length = m := by
        intro p hp
        rcases mem_of_mem_dictInsert hp with hp | hp
        · exact hlen p hp
        · rw [hp]
          simp [List.length_zipWith, htlen, halen, hblen]
      have hkeys2 : keysOf (dictInsert df target
          (List.zipWith (fun x y => x + y) tcol
            ((List.zipWith (fun x y => x * y) a b).map fun x => x * coef))) = keysOf df :=
        keysOf_dictInsert_of_mem ht
      obtain ⟨df', h1, h2, h3⟩ := ih _ (by rw [hkeys2]; exact ht)
        (by rw [hkeys2]; exact hrest) hlen2
      exact ⟨df', by rw [hstep]; exact h1, by rw [h2, hkeys2], h3⟩
    · have h0m : key ∈ keysOf df := by
        apply hrefs (key, coef) (List.mem_cons_self _ _)
        rw [refNames_of_not_hasColon hc]
        simp
      obtain ⟨f, hf⟩ := dictGet?_isSome_of_mem h0m
      have hflen : f.length = m := length_of_dictGet?_some hlen hf
      have hstep : applyCoeffs ((key, coef) :: rest) target df
          = applyCoeffs rest target (dictInsert df target
            (List.zipWith (fun x y => x + y) tcol (f.map fun x => x * coef))) := by
        simp only [applyCoeffs, htcol, bool_eq_false hc, Bool.false_eq_true, if_false, hf]
      have hlen2 : ∀ p ∈ dictInsert df target
          (List.zipWith (fun x y => x + y) tcol (f.map fun x => x * coef)),
          p.2.length = m := by
        intro p hp
        rcases mem_of_mem_dictInsert hp with hp | hp
        · exact hlen p hp
        · rw [hp]
          simp [List.length_zipWith, htlen, hflen]
      have hkeys2 : keysOf (dictInsert df target
          (List.zipWith (fun x y => x + y) tcol (f.map fun x => x * coef))) = keysOf df :=
        keysOf_dictInsert_of_mem ht
      obtain ⟨df', h1, h2, h3⟩ := ih _ (by rw [hkeys2]; exact ht)
        (by rw [hkeys2]; exact hrest) hlen2
      exact ⟨df', by rw [hstep]; exact h1, by rw [h2, hkeys2], h3⟩

lemma applyCoeffs_error_of_bad {target : String} :
    ∀ (coeffs : List (String × ℝ)) (df : Frame),
      (∃ p ∈ coeffs, ∃ r ∈ refNames p.1, r ∉ keysOf df) →
      ∃ name, applyCoeffs coeffs target df = .error (.unknownFeatureReference name) := by
  intro coeffs
  induction coeffs with
  | nil =>
    rintro df ⟨p, hp, _⟩
    simp at hp
  | cons q rest ih =>
    rintro df ⟨p, hp, r, hr, hrk⟩
    obtain ⟨key, coef⟩ := q
    cases htcol : dictGet? df target with
    | none =>
      refine ⟨target, ?_⟩
      simp only [applyCoeffs, htcol]
    | some tcol =>
      have httmem : target ∈ keysOf df := mem_keysOf_of_dictGet?_some htcol
      by_cases hc : hasColon key = true
      · cases h0 : dictGet? df ((splitOnColon key).getD 0 "") with
        | none =>
          refine ⟨(splitOnColon key).getD 0 "", ?_⟩
          simp only [applyCoeffs, htcol, hc, eq_self_iff_true, if_true, h0]
        | some a =>
          cases h1 : dictGet? df ((splitOnColon key).getD 1 "") with
          | none =>
            refine ⟨(splitOnColon key).getD 1 "", ?_⟩
            simp only [applyCoeffs, htcol, hc, eq_self_iff_true, if_true, h0, h1]
          | some b =>
            have hstep : applyCoeffs ((key, coef) :: rest) target df
                = applyCoeffs rest target (dictInsert df target
                  (List.zipWith (fun x y => x + y) tcol
                    ((List.zipWith (fun x y => x * y) a b).map fun x => x * coef))) := by
              simp only [applyCoeffs, htcol, hc, eq_self_iff_true, if_true, h0, h1]
            have hbadrest : ∃ p ∈ rest, ∃ r ∈ refNames p.1, r ∉ keysOf df := by
              rcases List.mem_cons.mp hp with hph | hpt
              · exfalso
                rw [hph] at hr
                rw [refNames_of_hasColon hc] at hr
                simp only [List.mem_cons, List.not_mem_nil, or_false] at hr
                rcases hr with hr | hr
                · rw [hr] at hrk
                  exact hrk (mem_keysOf_of_dictGet?_some h0)
                · rw [hr] at hrk
                  exact hrk (mem_keysOf_of_dictGet?_some h1)
              · exact ⟨p, hpt, r, hr, hrk⟩
            have hkeys : keysOf (dictInsert df target
                (List.zipWith (fun x y => x + y) tcol
                  ((List.zipWith (fun x y => x * y) a b).map fun x => x * coef))) = keysOf df :=
              keysOf_dictInsert_of_mem httmem
            obtain ⟨name, hname⟩ := ih _ (by rw [hkeys]; exact hbadrest)
            exact ⟨name, by rw [hstep]; exact hname⟩
      · cases h0 : dictGet? df key with
        | none =>
          refine ⟨key, ?_⟩
          simp only [applyCoeffs, htcol, bool_eq_false hc, Bool.false_eq_true, if_false, h0]
        | some f =>
          have hstep : applyCoeffs ((key, coef) :: rest) target df
              = applyCoeffs rest target (dictInsert df target
                (List.zipWith (fun x y => x + y) tcol (f.map fun x => x * coef))) := by
            simp only [applyCoeffs, htcol, bool_eq_false hc, Bool.false_eq_true, if_false, h0]
          have hbadrest : ∃ p ∈ rest, ∃ r ∈ refNames p.1, r ∉ keysOf df := by
            rcases List.mem_cons.mp hp with hph | hpt
            · exfalso
              rw [hph] at hr
              rw [refNames_of_not_hasColon hc] at hr
              simp only [List.mem_cons, List.not_mem_nil, or_false] at hr
              rw [hr] at hrk
              exact hrk (mem_keysOf_of_dictGet?_some h0)
            · exact ⟨p, hpt, r, hr, hrk⟩
          have hkeys : keysOf (dictInsert df target
              (List.zipWith (fun x y => x + y) tcol (f.map fun x => x * coef))) = keysOf df :=
            keysOf_dictInsert_of_mem httmem
          obtain ⟨name, hname⟩ := ih _ (by rw [hkeys]; exact hbadrest)
          exact ⟨name, by rw [hstep]; exact hname⟩

lemma colValue_eq_of_dictGet? {S : Frame} {r : String} {a : Column}
    (h : dictGet? S r = some a) : colValue S r = fun i => a.getD i 0 := by
  funext i
  simp [colValue, getCol, h]

lemma eq_range_map_colValue {S : Frame} {r : String} {a : Column} {n : ℕ}
    (h : dictGet? S r = some a) (hl : a.length = n) :
    a = (List.range n).map (colValue S r) := by
  rw [colValue_eq_of_dictGet? h]
  exact (map_getD_of_length hl).symm

lemma applyCoeffs_structure {target : String} {n : ℕ} {S : Frame}
    (hS : target ∉ keysOf S) (hlen : ∀ p ∈ S, p.2.length = n) :
    ∀ (coeffs : List (String × ℝ)) (z : ℕ → ℝ) (df' : Frame),
      (∀ p ∈ coeffs, ∀ r ∈ refNames p.1, r ≠ target) →
      applyCoeffs coeffs target (S ++ [(target, (List.range n).map z)]) = .ok df' →
      df' = S ++ [(target, (List.range n).map fun k =>
        z k + (coeffs.map fun p => p.2 * termOf (colValue S) p.1 k).sum)] := by
  intro coeffs
  induction coeffs with
  | nil =>
    intro z df' _ happ
    simp only [applyCoeffs] at happ
    injection happ with happ
    rw [← happ]
    simp
  | cons q rest ih =>
    intro z df' hrt happ
    obtain ⟨key, coef⟩ := q
    have htcol : dictGet? (S ++ [(target, (List.range n).map z)]) target
        = some ((List.range n).map z) := dictGet?_append_singleton_self hS
    have hrtrest : ∀ p ∈ rest, ∀ r ∈ refNames p.1, r ≠ target :=
      fun p hp => hrt p (List.mem_cons_of_mem _ hp)
    by_cases hc : hasColon key = true
    · have hp0t : (splitOnColon key).getD 0 "" ≠ target := by
        apply hrt (key, coef) (List.mem_cons_self _ _)
        rw [refNames_of_hasColon hc]
        simp
      have hp1t : (splitOnColon key).getD 1 "" ≠ target := by
        apply hrt (key, coef) (List.mem_cons_self _ _)
        rw [refNames_of_hasColon hc]
        simp
      have hred0 : dictGet? (S ++ [(target, (List.range n).map z)]) ((splitOnColon key).getD 0 "")
          = dictGet? S ((splitOnColon key).getD 0 "") := dictGet?_append_singleton_ne hp0t
      have hred1 : dictGet? (S ++ [(target, (List.range n).map z)]) ((splitOnColon key).getD 1 "")
          = dictGet? S ((splitOnColon key).getD 1 "") := dictGet?_append_singleton_ne hp1t
      cases h0 : dictGet? S ((splitOnColon key).getD 0 "") with
      | none =>
        exfalso
        have h0' : dictGet? (S ++ [(target, (List.range n).map z)])
            ((splitOnColon key).getD 0 "") = none := by rw [hred0, h0]
        simp only [applyCoeffs, htcol, hc, eq_self_iff_true, if_true, h0'] at happ
        exact Except.noConfusion happ
      | some a =>
        have h0' : dictGet? (S ++ [(target, (List.range n).map z)])
            ((splitOnColon key).getD 0 "") = some a := by rw [hred0, h0]
        have halen : a.length = n := length_of_dictGet?_some hlen h0
        cases h1 : dictGet? S ((splitOnColon key).getD 1 "") with
        | none =>
          exfalso
          have h1' : dictGet? (S ++ [(target, (List.range n).map z)])
              ((splitOnColon key).getD 1 "") = none := by rw [hred1, h1]
          simp only [applyCoeffs, htcol, hc, eq_self_iff_true, if_true, h0', h1'] at happ
          exact Except.noConfusion happ
        | some b =>
          have h1' : dictGet? (S ++ [(target, (List.range n).map z)])
              ((splitOnColon key).getD 1 "") = some b := by rw [hred1, h1]
          have hblen : b.length = n := length_of_dictGet?_some hlen h1
          simp only [applyCoeffs, htcol, hc, eq_self_iff_true, if_true, h0', h1'] at happ
          rw [eq_range_map_colValue h0 halen, eq_range_map_colValue h1 hblen,
            dictInsert_append_singleton hS] at happ
          rw [zipWith_map_range, List.map_map] at happ
          simp only [Function.comp_def] at happ
          rw [zipWith_map_range] at happ
          have hres := ih _ df' hrtrest happ
          rw [hres]
          have hfun : ∀ k : ℕ,
              z k + colValue S ((splitOnColon key).getD 0 "") k
                * colValue S ((splitOnColon key).getD 1 "") k * coef
                + (List.map (fun p => p.2 * termOf (colValue S) p.1 k) rest).sum
              = z k + (List.map (fun p => p.2 * termOf (colValue S) p.1 k)
                  ((key, coef) :: rest)).sum := by
            intro k
            rw [List.map_cons, List.sum_cons]
            have hterm : termOf (colValue S) key k
                = colValue S ((splitOnColon key).getD 0 "") k
                  * colValue S ((splitOnColon key).getD 1 "") k := by
              simp [termOf, hc]
            rw [hterm]
            ring
          simp only [hfun]
    · have hpkt : key ≠ target := by
        apply hrt (key, coef) (List.mem_cons_self _ _)
        rw [refNames_of_not_hasColon hc]
        simp
      have hred0 : dictGet? (S ++ [(target, (List.range n).map z)]) key
          = dictGet? S key := dictGet?_append_singleton_ne hpkt
      cases h0 : dictGet? S key with
      | none =>
        exfalso
        have h0' : dictGet? (S ++ [(target, (List.range n).map z)]) key = none := by
          rw [hred0, h0]
        simp only [applyCoeffs, htcol, bool_eq_false hc, Bool.false_eq_true, if_false,
          h0'] at happ
        exact Except.noConfusion happ
      | some f =>
        have h0' : dictGet? (S ++ [(target, (List.range n).map z)]) key = some f := by
          rw [hred0, h0]
        have hflen : f.length = n := length_of_dictGet?_some hlen h0
        simp only [applyCoeffs, htcol, bool_eq_false hc, Bool.false_eq_true, if_false,
          h0'] at happ
        rw [eq_range_map_colValue h0 hflen, dictInsert_append_singleton hS] at happ
        rw [List.map_map] at happ
        simp only [Function.comp_def] at happ
        rw [zipWith_map_range] at happ
        have hres := ih _ df' hrtrest happ
        rw [hres]
        have hfun : ∀ k : ℕ,
            z k + colValue S key k * coef
              + (List.map (fun p => p.2 * termOf (colValue S) p.1 k) rest).sum
            = z k + (List.map (fun p => p.2 * termOf (colValue S) p.1 k)
                ((key, coef) :: rest)).sum := by
          intro k
          rw [List.map_cons, List.sum_cons]
          have hterm : termOf (colValue S) key k = colValue S key k := by
            simp [termOf, bool_eq_false hc]
          rw [hterm]
          ring
        simp only [hfun]

/-! Facts about the logistic transform. -/

lemma logistic_pos (x : ℝ) : 0 < logistic x := by
  unfold logistic
  positivity

lemma logistic_lt_one (x : ℝ) : logistic x < 1 := by
  unfold logistic
  rw [div_lt_one (by positivity)]
  have := Real.exp_pos (-x)
  linarith

lemma logistic_lt_logistic {x y : ℝ} (h : x < y) : logistic x < logistic y := by
  unfold logistic
  have hx : (0:ℝ) < 1 + Real.exp (-y) := by positivity
  apply one_div_lt_one_div_of_lt hx
  have : Real.exp (-y) < Real.exp (-x) := Real.exp_lt_exp.mpr (by linarith)
  linarith

/-! The main structural description of a successful continuous-target call. -/

lemma generate_data_continuous_structure {c : List (String × ℝ)}
    {d : List (String × String × List ℝ)} {t ty : String} {n : ℕ} {g : RNG}
    {frame : Frame} {g' : RNG}
    (hft : t ∉ d.map fun q => q.1)
    (hrt : ∀ p ∈ c, ∀ r ∈ refNames p.1, r ∈ d.map fun q => q.1)
    (hty : ¬ty = "binary")
    (hok : generate_data c d t ty n g = (.ok frame, g')) :
    frame = (sampleFeatures d n [] g).1
      ++ [(t, (List.range n).map fun k => logistic (linScore c d n g k))]
    ∧ g' = (sampleFeatures d n [] g).2 := by
  have hS : t ∉ keysOf (sampleFeatures d n [] g).1 := by
    intro hmem
    rcases keysOf_sampleFeatures_subset d [] g hmem with h | h
    · simp [keysOf] at h
    · exact hft h
  have hlenS : ∀ p ∈ (sampleFeatures d n [] g).1, p.2.length = n :=
    sampleFeatures_lengths d [] g (by simp)
  have hdata : dictInsert (sampleFeatures d n [] g).1 t (List.replicate n 0)
      = (sampleFeatures d n [] g).1 ++ [(t, (List.range n).map fun _ => (0:ℝ))] := by
    rw [dictInsert_of_not_mem hS, replicate_eq_range_map]
  have hrt' : ∀ p ∈ c, ∀ r ∈ refNames p.1, r ≠ t := by
    intro p hp r hr heq
    exact hft (heq ▸ hrt p hp r hr)
  simp only [generate_data] at hok
  rw [hdata] at hok
  cases happly : applyCoeffs c t ((sampleFeatures d n [] g).1
      ++ [(t, (List.range n).map fun _ => (0:ℝ))]) with
  | error e =>
    rw [happly] at hok
    simp at hok
  | ok df =>
    have hstruct := applyCoeffs_structure hS hlenS c (fun _ => (0:ℝ)) df hrt' happly
    rw [happly] at hok
    rw [hstruct] at hok
    simp only [] at hok
    have hgt : dictGet? ((sampleFeatures d n [] g).1
        ++ [(t, (List.range n).map fun k =>
          (fun _ => (0:ℝ)) k + (c.map fun p => p.2 * termOf
            (colValue (sampleFeatures d n [] g).1) p.1 k).sum)]) t
        = some ((List.range n).map fun k =>
          (fun _ => (0:ℝ)) k + (c.map fun p => p.2 * termOf
            (colValue (sampleFeatures d n [] g).1) p.1 k).sum) :=
      dictGet?_append_singleton_self hS
    rw [hgt] at hok
    simp only [] at hok
    rw [if_neg hty] at hok
    rw [dictInsert_append_singleton hS, List.map_map] at hok
    rw [Prod.mk.injEq] at hok
    obtain ⟨hf, hg⟩ := hok
    injection hf with hf
    constructor
    · rw [← hf]
      have hfun : (logistic ∘ fun k =>
          (fun _ => (0:ℝ)) k + (c.map fun p => p.2 * termOf
            (colValue (sampleFeatures d n [] g).1) p.1 k).sum)
          = fun k => logistic (linScore c d n g k) := by
        funext k
        simp only [Function.comp_apply, zero_add]
        rfl
      rw [hfun]
    · exact hg.symm

lemma not_mem_sampleFeatures_keys {d : List (String × String × List ℝ)} {n : ℕ}
    {g : RNG} {t : String} (hft : t ∉ d.map fun q => q.1) :
    t ∉ keysOf (sampleFeatures d n [] g).1 := by
  intro hmem
  rcases keysOf_sampleFeatures_subset d [] g hmem with h | h
  · simp [keysOf] at h
  · exact hft h

lemma generate_data_ok_keys_lengths {c : List (String × ℝ)}
    {d : List (String × String × List ℝ)} {t ty : String} {n : ℕ} {g : RNG}
    (hnd : (d.map fun q => q.1).Nodup)
    (hft : t ∉ d.map fun q => q.1)
    (hsup : ∀ p ∈ d, supportedKind p.2.1 = true)
    (hrt : ∀ p ∈ c, ∀ r ∈ refNames p.1, r ∈ d.map fun q => q.1) :
    ∃ frame g', generate_data c d t ty n g = (.ok frame, g')
      ∧ keysOf frame = (d.map fun q => q.1) ++ [t]
      ∧ ∀ p ∈ frame, p.2.length = n := by
  have hkeysS : keysOf (sampleFeatures d n [] g).1 = d.map fun q => q.1 := by
    have h := keysOf_sampleFeatures (n := n) d [] g hsup hnd (by intro x _; simp [keysOf])
    simpa [keysOf] using h
  have hS : t ∉ keysOf (sampleFeatures d n [] g).1 := by rw [hkeysS]; exact hft
  have hdata : dictInsert (sampleFeatures d n [] g).1 t (List.replicate n 0)
      = (sampleFeatures d n [] g).1 ++ [(t, List.replicate n 0)] :=
    dictInsert_of_not_mem hS
  have hkeysdata : keysOf (dictInsert (sampleFeatures d n [] g).1 t
      (List.replicate n 0)) = (d.map fun q => q.1) ++ [t] := by
    rw [hdata, keysOf_append, hkeysS]
    rfl
  have htmem : t ∈ keysOf (dictInsert (sampleFeatures d n [] g).1 t
      (List.replicate n 0)) := by
    rw [hkeysdata]
    simp
  have hrefs : ∀ p ∈ c, ∀ r ∈ refNames p.1,
      r ∈ keysOf (dictInsert (sampleFeatures d n [] g).1 t (List.replicate n 0)) := by
    intro p hp r hr
    rw [hkeysdata]
    exact List.mem_append_left _ (hrt p hp r hr)
  have hlendata : ∀ p ∈ dictInsert (sampleFeatures d n [] g).1 t
      (List.replicate n 0), p.2.length = n := by
    rw [hdata]
    intro p hp
    rcases List.mem_append.mp hp with hp | hp
    · exact sampleFeatures_lengths d [] g (by simp) p hp
    · simp at hp
      rw [hp]
      simp
  obtain ⟨df, hok, hkeys, hlen⟩ := applyCoeffs_ok_of_valid c _ htmem hrefs hlendata
  have htdf : t ∈ keysOf df := by rw [hkeys]; exact htmem
  obtain ⟨tcol, htcol⟩ := dictGet?_isSome_of_mem htdf
  have htcollen : tcol.length = n := length_of_dictGet?_some hlen htcol
  by_cases hty : ty = "binary"
  · refine ⟨dictInsert (dictInsert df t (tcol.map logistic)) t
      ((List.range n).map fun k =>
        if (sampleFeatures d n [] g).2.stream ((sampleFeatures d n [] g).2.pos + k)
          < (tcol.map logistic).getD k 0 then 1 else 0),
      (sampleFeatures d n [] g).2.advance n, ?_, ?_, ?_⟩
    · simp only [generate_data]
      rw [hok]
      simp only []
      rw [htcol]
      simp only []
      rw [if_pos hty, dictGet?_dictInsert_self]
    · rw [keysOf_dictInsert_of_mem, keysOf_dictInsert_of_mem htdf, hkeys, hkeysdata]
      rw [keysOf_dictInsert_of_mem htdf]
      exact htdf
    · intro p hp
      rcases mem_of_mem_dictInsert hp with hp | hp
      · rcases mem_of_mem_dictInsert hp with hp | hp
        · exact hlen p hp
        · rw [hp]
          simp [htcollen]
      · rw [hp]
        simp
  · refine ⟨dictInsert df t (tcol.map logistic), (sampleFeatures d n [] g).2, ?_, ?_, ?_⟩
    · simp only [generate_data]
      rw [hok]
      simp only []
      rw [htcol]
      simp only []
      rw [if_neg hty]
    · rw [keysOf_dictInsert_of_mem htdf, hkeys, hkeysdata]
    · intro p hp
      rcases mem_of_mem_dictInsert hp with hp | hp
      · exact hlen p hp
      · rw [hp]
        simp [htcollen]

/-- The entrywise description of a successful binary-target call: each target
entry is a Bernoulli draw thresholding the next stream value against the
logistic of that row's linear score, and the returned random source is the
post-feature-sampling source advanced by the n target draws. -/
lemma generate_data_binary_entries {c : List (String × ℝ)}
    {d : List (String × String × List ℝ)} {t : String} {n : ℕ} {g : RNG}
    {frame : Frame} {g' : RNG}
    (hft : t ∉ d.map fun q => q.1)
    (hrt : ∀ p ∈ c, ∀ r ∈ refNames p.1, r ∈ d.map fun q => q.1)
    (hok : generate_data c d t "binary" n g = (.ok frame, g')) :
    (∀ i < n, (getCol frame t).getD i 0
      = if (sampleFeatures d n [] g).2.stream ((sampleFeatures d n [] g).2.pos + i)
          < logistic (linScore c d n g i) then 1 else 0)
    ∧ g' = ((sampleFeatures d n [] g).2).advance n := by
  have hS : t ∉ keysOf (sampleFeatures d n [] g).1 := not_mem_sampleFeatures_keys hft
  have hlenS : ∀ p ∈ (sampleFeatures d n [] g).1, p.2.length = n :=
    sampleFeatures_lengths d [] g (by simp)
  have hdata : dictInsert (sampleFeatures d n [] g).1 t (List.replicate n 0)
      = (sampleFeatures d n [] g).1 ++ [(t, (List.range n).map fun _ => (0:ℝ))] := by
    rw [dictInsert_of_not_mem hS, replicate_eq_range_map]
  have hrt' : ∀ p ∈ c, ∀ r ∈ refNames p.1, r ≠ t := by
    intro p hp r hr heq
    exact hft (heq ▸ hrt p hp r hr)
  simp only [generate_data] at hok
  rw [hdata] at hok
  cases happly : applyCoeffs c t ((sampleFeatures d n [] g).1
      ++ [(t, (List.range n).map fun _ => (0:ℝ))]) with
  | error e =>
    rw [happly] at hok
    simp at hok
  | ok df =>
    have hstruct := applyCoeffs_structure hS hlenS c (fun _ => (0:ℝ)) df hrt' happly
    rw [happly] at hok
    rw [hstruct] at hok
    simp only [] at hok
    rw [dictGet?_append_singleton_self hS] at hok
    simp only [] at hok
    simp only [if_true] at hok
    rw [dictInsert_append_singleton hS, List.map_map] at hok
    rw [dictGet?_append_singleton_self hS] at hok
    simp only [] at hok
    rw [dictInsert_append_singleton hS] at hok
    rw [Prod.mk.injEq] at hok
    obtain ⟨hf, hg⟩ := hok
    injection hf with hf
    constructor
    · intro i hi
      rw [← hf, getCol, dictGet?_append_singleton_self hS]
      simp only [Option.getD_some]
      rw [getD_range_map hi, getD_range_map hi]
      simp only [Function.comp_apply, zero_add]
      rfl
    · exact hg.symm

/-! Claim theorems. -/

/-- C5: for every call with valid inputs (unique feature names of supported
kinds, a target name distinct from every feature name, and coefficient term
keys referencing only feature names), the returned table's columns appear in
the insertion order of the FeatureSpecs, followed last by the target column. -/
theorem c5_columns_in_insertion_order_target_last
    (c : List (String × ℝ)) (d : List (String × String × List ℝ))
    (t ty : String) (n : ℕ) (g : RNG)
    (hnd : (d.map fun q => q.1).Nodup)
    (hft : t ∉ d.map fun q => q.1)
    (hsup : ∀ p ∈ d, supportedKind p.2.1 = true)
    (hrt : ∀ p ∈ c, ∀ r ∈ refNames p.1, r ∈ d.map fun q => q.1) :
    ∃ frame g', generate_data c d t ty n g = (.ok frame, g')
      ∧ keysOf frame = (d.map fun q => q.1) ++ [t] := by
  obtain ⟨frame, g', hok, hkeys, _⟩ := generate_data_ok_keys_lengths hnd hft hsup hrt
  exact ⟨frame, g', hok, hkeys⟩

/-- Witness for C5 at a concrete valid call. -/
theorem c5_columns_in_insertion_order_target_last_witness :
    ∃ frame g',
      generate_data [("x", 1), ("x:w", 2)]
        [("x", "bernouli", [1/2]), ("w", "gaussian", [0, 1]), ("z", "constant", [3])]
        "t" "c" 1 rng0 = (.ok frame, g')
      ∧ keysOf frame = ["x", "w", "z", "t"] :=
  c5_columns_in_insertion_order_target_last [("x", 1), ("x:w", 2)]
    [("x", "bernouli", [1/2]), ("w", "gaussian", [0, 1]), ("z", "constant", [3])]
    "t" "c" 1 rng0 (by decide) (by decide) (by decide) (by decide)

/-- C4: for every call with n = 0 and valid inputs, the returned table has
zero rows (every column is empty) and exactly the expected column names: one
column per FeatureSpec, in order, plus the target column. -/
theorem c4_zero_rows_and_expected_columns
    (c : List (String × ℝ)) (d : List (String × String × List ℝ))
    (t ty : String) (g : RNG)
    (hnd : (d.map fun q => q.1).Nodup)
    (hft : t ∉ d.map fun q => q.1)
    (hsup : ∀ p ∈ d, supportedKind p.2.1 = true)
    (hrt : ∀ p ∈ c, ∀ r ∈ refNames p.1, r ∈ d.map fun q => q.1) :
    ∃ frame g', generate_data c d t ty 0 g = (.ok frame, g')
      ∧ keysOf frame = (d.map fun q => q.1) ++ [t]
      ∧ ∀ p ∈ frame, p.2.length = 0 :=
  generate_data_ok_keys_lengths hnd hft hsup hrt

/-- Witness for C4 at a concrete valid call with a binary target. -/
theorem c4_zero_rows_and_expected_columns_witness :
    ∃ frame g',
      generate_data [("x", 1), ("x:w", 2)]
        [("x", "bernouli", [1/2]), ("w", "gaussian", [0, 1]), ("z", "constant", [3])]
        "t" "binary" 0 rng0 = (.ok frame, g')
      ∧ keysOf frame = ["x", "w", "z", "t"]
      ∧ ∀ p ∈ frame, p.2.length = 0 :=
  c4_zero_rows_and_expected_columns [("x", 1), ("x:w", 2)]
    [("x", "bernouli", [1/2]), ("w", "gaussian", [0, 1]), ("z", "constant", [3])]
    "t" "binary" rng0 (by decide) (by decide) (by decide) (by decide)

/-- C6: determinism — two calls with identical inputs whose random sources
carry the same stream (same seed) and the same position return bit-identical
results. -/
theorem c6_deterministic_given_seed
    (c : List (String × ℝ)) (d : List (String × String × List ℝ))
    (t ty : String) (n : ℕ) (g1 g2 : RNG)
    (hs : g1.stream = g2.stream) (hp : g1.pos = g2.pos) :
    generate_data c d t ty n g1 = generate_data c d t ty n g2 := by
  obtain ⟨s1, p1⟩ := g1
  obtain ⟨s2, p2⟩ := g2
  simp only at hs hp
  rw [hs, hp]

/-- Witness for C6 at a concrete call. -/
theorem c6_deterministic_given_seed_witness :
    generate_data [("x", 1)] [("x", "constant", [4])] "t" "c" 2 rng0
      = generate_data [("x", 1)] [("x", "constant", [4])] "t" "c" 2 rng0 :=
  c6_deterministic_given_seed [("x", 1)] [("x", "constant", [4])] "t" "c" 2
    rng0 rng0 rfl rfl

/-- C7: for every call with a non-binary target kind that returns a table,
every value of the returned target column lies strictly within (0, 1). -/
theorem c7_continuous_target_values_in_open_unit_interval
    (c : List (String × ℝ)) (d : List (String × String × List ℝ))
    (t ty : String) (n : ℕ) (g : RNG) (frame : Frame) (g' : RNG)
    (hty : ty ≠ "binary")
    (hok : generate_data c d t ty n g = (.ok frame, g')) :
    ∀ v ∈ getCol frame t, 0 < v ∧ v < 1 := by
  simp only [generate_data] at hok
  cases happly : applyCoeffs c t (dictInsert (sampleFeatures d n [] g).1 t
      (List.replicate n 0)) with
  | error e =>
    rw [happly] at hok
    simp at hok
  | ok df =>
    rw [happly] at hok
    simp only [] at hok
    cases hgt : dictGet? df t with
    | none =>
      rw [hgt] at hok
      simp at hok
    | some tcol =>
      rw [hgt] at hok
      simp only [] at hok
      rw [if_neg hty, Prod.mk.injEq] at hok
      obtain ⟨hf, _⟩ := hok
      injection hf with hf
      rw [← hf]
      intro v hv
      rw [getCol, dictGet?_dictInsert_self] at hv
      simp only [Option.getD_some] at hv
      rcases List.mem_map.mp hv with ⟨x, _, rfl⟩
      exact ⟨logistic_pos x, logistic_lt_one x⟩

/-- Witness for C7 at a concrete call and the concrete target value. -/
theorem c7_continuous_target_values_in_open_unit_interval_witness :
    0 < logistic 0 ∧ logistic 0 < 1 :=
  c7_continuous_target_values_in_open_unit_interval [] [] "t" "c" 1 rng0
    [("t", [logistic 0])] rng0 (by decide) rfl (logistic 0) (List.mem_cons_self _ _)

/-- C8: one call of the generator, as a transition on the caller-visible
environment, has no side effect beyond its return value and the consumed
random draws: the coefficients and distributions mappings the caller passed
are unchanged after the call. -/
theorem c8_caller_mappings_unchanged (env : CallerEnv) (t ty : String) (n : ℕ) :
    (generate_data_call env t ty n).2.coefficients = env.coefficients
    ∧ (generate_data_call env t ty n).2.distributions = env.distributions :=
  ⟨rfl, rfl⟩

/-- C1 (amended): for every continuous-target call whose coefficient term keys
reference only feature names present in the distributions mapping, and whose
target column name is not itself one of the feature names, each entry of the
returned target column equals the logistic transform of that row's linear
score, the ordered sum of coefficient times term value. -/
theorem c1_target_entries_are_logistic_of_linear_score
    (c : List (String × ℝ)) (d : List (String × String × List ℝ))
    (t ty : String) (n : ℕ) (g : RNG) (frame : Frame) (g' : RNG)
    (hft : t ∉ d.map fun q => q.1)
    (hrt : ∀ p ∈ c, ∀ r ∈ refNames p.1, r ∈ d.map fun q => q.1)
    (hty : ty ≠ "binary")
    (hok : generate_data c d t ty n g = (.ok frame, g')) :
    ∀ i < n, (getCol frame t).getD i 0 = logistic (linScore c d n g i) := by
  obtain ⟨hf, _⟩ := generate_data_continuous_structure hft hrt hty hok
  intro i hi
  rw [hf, getCol, dictGet?_append_singleton_self (not_mem_sampleFeatures_keys hft)]
  simp only [Option.getD_some]
  exact getD_range_map hi

/-- Witness for C1 at a concrete valid call and row 0. -/
theorem c1_target_entries_are_logistic_of_linear_score_witness :
    (getCol [("x", [(2:ℝ)]), ("y", [logistic (0 + 2 * 3)])] "y").getD 0 0
      = logistic (linScore [("x", 3)] [("x", "constant", [2])] 1 rng0 0) :=
  c1_target_entries_are_logistic_of_linear_score [("x", 3)] [("x", "constant", [2])]
    "y" "c" 1 rng0 [("x", [(2:ℝ)]), ("y", [logistic (0 + 2 * 3)])] rng0
    (by decide) (by decide) (by decide) rfl 0 (by decide)

/-- C1 (counterexample to the claim as stated): a call whose target column
name coincides with a feature name satisfies every hypothesis the claim lists
(continuous target, every term key references a feature in the distributions
mapping), yet the returned target entry is the logistic of 0 — the target
zero-initialization overwrites the sampled feature column — and differs from
the logistic of the row's linear score over the sampled feature values. -/
theorem c1_counterexample_target_name_collides_with_feature :
    (∀ p ∈ [("x", (1:ℝ))], ∀ r ∈ refNames p.1,
      r ∈ List.map (fun q => q.1) [("x", "constant", ([5]:List ℝ))])
    ∧ (generate_data [("x", 1)] [("x", "constant", [5])] "x" "c" 1 rng0).1
      = .ok [("x", [logistic (0 + 0 * 1)])]
    ∧ (getCol [("x", ([logistic (0 + 0 * 1)] : Column))] "x").getD 0 0
      ≠ logistic (linScore [("x", 1)] [("x", "constant", [5])] 1 rng0 0) := by
  refine ⟨by decide, rfl, ?_⟩
  have hval : (getCol [("x", ([logistic (0 + 0 * 1)] : Column))] "x").getD 0 0
      = logistic (0 + 0 * 1) := by
    rw [getCol, dictGet?_singleton_self]
    rfl
  have hscore : linScore [("x", 1)] [("x", "constant", [5])] 1 rng0 0
      = 1 * 5 + 0 := rfl
  rw [hval, hscore]
  have hlt : logistic (0 + 0 * 1) < logistic (1 * 5 + 0) :=
    logistic_lt_logistic (by norm_num)
  exact ne_of_lt hlt

/-- C3 (amended): if some coefficient term key names a feature that is absent
from the distributions mapping and distinct from the target column name, the
call fails with an UnknownFeatureReference error, and the random source it
returns is exactly the post-feature-sampling source: the failure happens
before any Bernoulli draw of the target column consumes randomness. -/
theorem c3_unknown_reference_fails_before_target_sampling
    (c : List (String × ℝ)) (d : List (String × String × List ℝ))
    (t ty : String) (n : ℕ) (g : RNG)
    (hbad : ∃ p ∈ c, ∃ r ∈ refNames p.1, r ∉ d.map (fun q => q.1) ∧ r ≠ t) :
    ∃ name, generate_data c d t ty n g
      = (.error (.unknownFeatureReference name), (sampleFeatures d n [] g).2) := by
  obtain ⟨p, hp, r, hr, hrd, hrtne⟩ := hbad
  have hrk : r ∉ keysOf (dictInsert (sampleFeatures d n [] g).1 t
      (List.replicate n 0)) := by
    intro hmem
    rcases mem_keysOf_dictInsert_elim hmem with h | h
    · rcases keysOf_sampleFeatures_subset d [] g h with h | h
      · simp [keysOf] at h
      · exact hrd h
    · exact hrtne h
  obtain ⟨name, hname⟩ :=
    @applyCoeffs_error_of_bad t c _ ⟨p, hp, r, hr, hrk⟩
  refine ⟨name, ?_⟩
  simp only [generate_data]
  rw [hname]

/-- Witness for C3 at a concrete call referencing an absent feature name. -/
theorem c3_unknown_reference_fails_before_target_sampling_witness :
    ∃ name, generate_data [("y", 5)] [] "t" "c" 0 rng0
      = (.error (.unknownFeatureReference name), (sampleFeatures [] 0 [] rng0).2) :=
  c3_unknown_reference_fails_before_target_sampling [("y", 5)] [] "t" "c" 0 rng0
    ⟨("y", 5), List.mem_cons_self _ _, "y", by decide, by decide, by decide⟩

/-- C3 (counterexample to the claim as stated): the interaction key "x:t"
names "t", which is absent from the distributions mapping, yet the call does
not fail, because "t" is the target column name and the zero-initialized
target column satisfies the lookup: the call returns a table. -/
theorem c3_counterexample_absent_name_equal_to_target :
    ("t" ∈ refNames "x:t"
      ∧ "t" ∉ List.map (fun q => q.1) [("x", "constant", ([1]:List ℝ))])
    ∧ (generate_data [("x:t", 2)] [("x", "constant", [1])] "t" "c" 1 rng0).1
      = .ok [("x", [(1:ℝ)]), ("t", [logistic (0 + 1 * 0 * 2)])]
    ∧ ∀ e : GenError,
      (generate_data [("x:t", 2)] [("x", "constant", [1])] "t" "c" 1 rng0).1
        ≠ .error e := by
  refine ⟨by decide, rfl, ?_⟩
  intro e he
  rw [show (generate_data [("x:t", 2)] [("x", "constant", [1])] "t" "c" 1 rng0).1
    = .ok [("x", [(1:ℝ)]), ("t", [logistic (0 + 1 * 0 * 2)])] from rfl] at he
  exact Except.noConfusion he

/-- C2 (code divergence): at a distributions mapping containing the
unsupported kind tag "poisson", the generator does not fail with any error —
in particular not with UnsupportedDistributionKind — it silently skips the
feature and returns a table lacking that feature's column. -/
theorem c2_unsupported_kind_silently_skipped :
    (generate_data [] [("x", "poisson", [(1:ℝ)])] "t" "c" 1 rng0).1
      = .ok [("t", [logistic 0])]
    ∧ "x" ∉ keysOf [("t", ([logistic 0] : Column))]
    ∧ ∀ e : GenError,
      (generate_data [] [("x", "poisson", [(1:ℝ)])] "t" "c" 1 rng0).1 ≠ .error e := by
  refine ⟨rfl, by decide, ?_⟩
  intro e he
  rw [show (generate_data [] [("x", "poisson", [(1:ℝ)])] "t" "c" 1 rng0).1
    = .ok [("t", [logistic 0])] from rfl] at he
  exact Except.noConfusion he

/-- C9: when the target column name equals one of the feature names (the call
otherwise valid), for either target kind the returned table carries exactly
the feature names as columns — the derived target column overwrites the
sampled feature column — so it has d.length columns, fewer than features plus
one, with the shared name occurring once; for a continuous target the values
stored under that name are moreover logistic outputs strictly inside (0, 1),
not the sampled feature column. -/
theorem c9_target_name_collision_overwrites_feature_column
    (c : List (String × ℝ)) (d : List (String × String × List ℝ))
    (t ty : String) (n : ℕ) (g : RNG)
    (hnd : (d.map fun q => q.1).Nodup)
    (hmem : t ∈ d.map fun q => q.1)
    (hsup : ∀ p ∈ d, supportedKind p.2.1 = true)
    (hrt : ∀ p ∈ c, ∀ r ∈ refNames p.1, r ∈ d.map fun q => q.1) :
    ∃ frame g', generate_data c d t ty n g = (.ok frame, g')
      ∧ keysOf frame = d.map (fun q => q.1)
      ∧ frame.length = d.length
      ∧ (keysOf frame).count t = 1
      ∧ (ty ≠ "binary" → ∀ v ∈ getCol frame t, 0 < v ∧ v < 1) := by
  have hkeysS : keysOf (sampleFeatures d n [] g).1 = d.map fun q => q.1 := by
    have h := keysOf_sampleFeatures (n := n) d [] g hsup hnd (by intro x _; simp [keysOf])
    simpa [keysOf] using h
  have hSmem : t ∈ keysOf (sampleFeatures d n [] g).1 := by rw [hkeysS]; exact hmem
  have hkeysdata : keysOf (dictInsert (sampleFeatures d n [] g).1 t
      (List.replicate n 0)) = d.map fun q => q.1 := by
    rw [keysOf_dictInsert_of_mem hSmem, hkeysS]
  have htmem : t ∈ keysOf (dictInsert (sampleFeatures d n [] g).1 t
      (List.replicate n 0)) := by
    rw [hkeysdata]
    exact hmem
  have hrefs : ∀ p ∈ c, ∀ r ∈ refNames p.1,
      r ∈ keysOf (dictInsert (sampleFeatures d n [] g).1 t (List.replicate n 0)) := by
    intro p hp r hr
    rw [hkeysdata]
    exact hrt p hp r hr
  have hlendata : ∀ p ∈ dictInsert (sampleFeatures d n [] g).1 t
      (List.replicate n 0), p.2.length = n := by
    intro p hp
    rcases mem_of_mem_dictInsert hp with hp | hp
    · exact sampleFeatures_lengths d [] g (by simp) p hp
    · rw [hp]
      simp
  obtain ⟨df, hok, hkeys, _⟩ := applyCoeffs_ok_of_valid c _ htmem hrefs hlendata
  have htdf : t ∈ keysOf df := by rw [hkeys]; exact htmem
  obtain ⟨tcol, htcol⟩ := dictGet?_isSome_of_mem htdf
  have hk1 : keysOf (dictInsert df t (tcol.map logistic)) = d.map fun q => q.1 := by
    rw [keysOf_dictInsert_of_mem htdf, hkeys, hkeysdata]
  by_cases hty : ty = "binary"
  · have htdf1 : t ∈ keysOf (dictInsert df t (tcol.map logistic)) := by
      rw [hk1]
      exact hmem
    have hfk : keysOf (dictInsert (dictInsert df t (tcol.map logistic)) t
        ((List.range n).map fun k =>
          if (sampleFeatures d n [] g).2.stream ((sampleFeatures d n [] g).2.pos + k)
            < (tcol.map logistic).getD k 0 then 1 else 0)) = d.map fun q => q.1 := by
      rw [keysOf_dictInsert_of_mem htdf1, hk1]
    refine ⟨dictInsert (dictInsert df t (tcol.map logistic)) t
      ((List.range n).map fun k =>
        if (sampleFeatures d n [] g).2.stream ((sampleFeatures d n [] g).2.pos + k)
          < (tcol.map logistic).getD k 0 then 1 else 0),
      (sampleFeatures d n [] g).2.advance n, ?_, hfk, ?_, ?_, ?_⟩
    · simp only [generate_data]
      rw [hok]
      simp only []
      rw [htcol]
      simp only []
      rw [if_pos hty, dictGet?_dictInsert_self]
    · have hl := congrArg List.length hfk
      simpa [keysOf] using hl
    · rw [hfk]
      exact List.count_eq_one_of_mem hnd hmem
    · intro hcty
      exact absurd hty hcty
  · refine ⟨dictInsert df t (tcol.map logistic), (sampleFeatures d n [] g).2,
      ?_, hk1, ?_, ?_, ?_⟩
    · simp only [generate_data]
      rw [hok]
      simp only []
      rw [htcol]
      simp only []
      rw [if_neg hty]
    · have hl := congrArg List.length hk1
      simpa [keysOf] using hl
    · rw [hk1]
      exact List.count_eq_one_of_mem hnd hmem
    · intro _ v hv
      rw [getCol, dictGet?_dictInsert_self] at hv
      simp only [Option.getD_some] at hv
      rcases List.mem_map.mp hv with ⟨x, _, rfl⟩
      exact ⟨logistic_pos x, logistic_lt_one x⟩

/-- Witness for C9 at a concrete colliding call. -/
theorem c9_target_name_collision_overwrites_feature_column_witness :
    ∃ frame g', generate_data [("y", 1)]
      [("x", "constant", [5]), ("y", "constant", [2])] "x" "c" 1 rng0
      = (.ok frame, g')
      ∧ keysOf frame = List.map (fun q => q.1)
          [("x", "constant", ([5]:List ℝ)), ("y", "constant", [2])]
      ∧ frame.length = List.length
          [("x", "constant", ([5]:List ℝ)), ("y", "constant", [2])]
      ∧ (keysOf frame).count "x" = 1
      ∧ ("c" ≠ "binary" → ∀ v ∈ getCol frame "x", 0 < v ∧ v < 1) :=
  c9_target_name_collision_overwrites_feature_column [("y", 1)]
    [("x", "constant", [5]), ("y", "constant", [2])] "x" "c" 1 rng0
    (by decide) (by decide) (by decide) (by decide)

/-- C10 (amended): a coefficient term key with more than one separator,
splitting into three or more names, does not make an otherwise-valid call
fail: for either target kind the call succeeds, the key contributes
coefficient times the product of the first two named features only — the
continuous target entries are the logistic of the linear score, and the
binary target entries are Bernoulli draws thresholded at that logistic
probability — ignoring every name after the second, provided the target
column name is not one of the feature names. -/
theorem c10_multi_separator_key_uses_first_two_names
    (c : List (String × ℝ)) (d : List (String × String × List ℝ))
    (t ty key : String) (coef : ℝ) (a b e : String) (rest : List String)
    (n : ℕ) (g : RNG)
    (hnd : (d.map fun q => q.1).Nodup)
    (hft : t ∉ d.map fun q => q.1)
    (hsup : ∀ p ∈ d, supportedKind p.2.1 = true)
    (hrt : ∀ p ∈ c, ∀ r ∈ refNames p.1, r ∈ d.map fun q => q.1)
    (hkmem : (key, coef) ∈ c)
    (hc : hasColon key = true)
    (hsplit : splitOnColon key = a :: b :: e :: rest)
    (hall : ∀ r ∈ splitOnColon key, r ∈ d.map fun q => q.1) :
    ∃ frame g', generate_data c d t ty n g = (.ok frame, g')
      ∧ (ty ≠ "binary" →
          ∀ i < n, (getCol frame t).getD i 0 = logistic (linScore c d n g i))
      ∧ (ty = "binary" →
          ∀ i < n, (getCol frame t).getD i 0
            = if (sampleFeatures d n [] g).2.stream
                ((sampleFeatures d n [] g).2.pos + i)
                < logistic (linScore c d n g i) then 1 else 0)
      ∧ ∀ i, termOf (featValue d n g) key i
          = featValue d n g a i * featValue d n g b i := by
  obtain ⟨frame, g', hok, _, _⟩ := generate_data_ok_keys_lengths hnd hft hsup hrt
  refine ⟨frame, g', hok, ?_, ?_, ?_⟩
  · intro hty
    obtain ⟨hf, _⟩ := generate_data_continuous_structure hft hrt hty hok
    intro i hi
    rw [hf, getCol, dictGet?_append_singleton_self (not_mem_sampleFeatures_keys hft)]
    simp only [Option.getD_some]
    exact getD_range_map hi
  · intro hty
    subst hty
    exact (generate_data_binary_entries hft hrt hok).1
  · intro i
    simp only [termOf, hc, eq_self_iff_true, if_true, hsplit, List.getD_cons_zero,
      List.getD_cons_succ]

/-- Witness for C10 at a concrete valid call with the key "u:v:w". -/
theorem c10_multi_separator_key_uses_first_two_names_witness :
    ∃ frame g', generate_data [("u:v:w", 4)]
      [("u", "constant", [1]), ("v", "constant", [2]), ("w", "constant", [3])]
      "t" "c" 1 rng0 = (.ok frame, g')
      ∧ ("c" ≠ "binary" →
          ∀ i < 1, (getCol frame "t").getD i 0 = logistic (linScore [("u:v:w", 4)]
            [("u", "constant", [1]), ("v", "constant", [2]), ("w", "constant", [3])]
            1 rng0 i))
      ∧ ("c" = "binary" →
          ∀ i < 1, (getCol frame "t").getD i 0
            = if (sampleFeatures
                  [("u", "constant", [1]), ("v", "constant", [2]), ("w", "constant", [3])]
                  1 [] rng0).2.stream
                ((sampleFeatures
                  [("u", "constant", [1]), ("v", "constant", [2]), ("w", "constant", [3])]
                  1 [] rng0).2.pos + i)
                < logistic (linScore [("u:v:w", 4)]
                    [("u", "constant", [1]), ("v", "constant", [2]), ("w", "constant", [3])]
                    1 rng0 i) then 1 else 0)
      ∧ ∀ i, termOf (featValue
          [("u", "constant", [1]), ("v", "constant", [2]), ("w", "constant", [3])]
          1 rng0) "u:v:w" i
        = featValue [("u", "constant", [1]), ("v", "constant", [2]), ("w", "constant", [3])]
            1 rng0 "u" i
          * featValue [("u", "constant", [1]), ("v", "constant", [2]), ("w", "constant", [3])]
              1 rng0 "v" i :=
  c10_multi_separator_key_uses_first_two_names [("u:v:w", 4)]
    [("u", "constant", [1]), ("v", "constant", [2]), ("w", "constant", [3])]
    "t" "c" "u:v:w" 4 "u" "v" "w" [] 1 rng0
    (by decide) (by decide) (by decide) (by decide) (List.mem_cons_self _ _)
    (by decide) (by decide) (by decide)

/-- C10 (counterexample to the claim as stated): with the multi-separator key
"x:y:z" over existing features x, y, z, but with the target column name equal
to "x", the call succeeds yet the contribution is not coefficient times the
sampled first and second features: the target entry is the logistic of 0,
not of the specified linear score 2·(5·7). -/
theorem c10_counterexample_target_collides_with_first_name :
    (∀ r ∈ splitOnColon "x:y:z", r ∈ List.map (fun q => q.1)
      [("x", "constant", ([5]:List ℝ)), ("y", "constant", [7]), ("z", "constant", [11])])
    ∧ (generate_data [("x:y:z", 2)]
        [("x", "constant", [5]), ("y", "constant", [7]), ("z", "constant", [11])]
        "x" "c" 1 rng0).1
      = .ok [("x", [logistic (0 + 0 * 7 * 2)]), ("y", [(7:ℝ)]), ("z", [(11:ℝ)])]
    ∧ (getCol [("x", ([logistic (0 + 0 * 7 * 2)] : Column)),
        ("y", ([7] : Column)), ("z", ([11] : Column))] "x").getD 0 0
      ≠ logistic (linScore [("x:y:z", 2)]
          [("x", "constant", [5]), ("y", "constant", [7]), ("z", "constant", [11])]
          1 rng0 0) := by
  refine ⟨by decide, rfl, ?_⟩
  have hval : (getCol [("x", ([logistic (0 + 0 * 7 * 2)] : Column)),
      ("y", ([7] : Column)), ("z", ([11] : Column))] "x").getD 0 0
      = logistic (0 + 0 * 7 * 2) := rfl
  have hscore : linScore [("x:y:z", 2)]
      [("x", "constant", [5]), ("y", "constant", [7]), ("z", "constant", [11])]
      1 rng0 0 = 2 * (5 * 7) + 0 := rfl
  rw [hval, hscore]
  exact ne_of_lt (logistic_lt_logistic (by norm_num))
